import Mathlib

/-!
Verification of the trace-to-compilation-database core of `bear`
(`src/analyzer/bear.py`).

Python strings are embedded as `List Char`; the stateful parts (reading a
trace file, the process exit) are embedded as explicit data: a trace file is
an `Option (List Char)` (`none` models an unreadable file), the collecting
process's working directory (`os.getcwd()`) is an explicit `cwd` argument,
and exceptions (`IndexError` from a short field list or an empty argument
vector, `IOError` from an unreadable file) are `Except PyError`.

The external command classifier `analyzer.command.parse` is not part of the
source tree; the pipeline is therefore parameterised over a classifier
function, and a concrete classifier modelled from the specification is used
to instantiate scenarios.
-/

set_option autoImplicit false

namespace Bear

/-- Record separator, `chr(0x1e)` in the source. -/
def RS : Char := Char.ofNat 0x1e

/-- Unit separator, `chr(0x1f)` in the source. -/
def US : Char := Char.ofNat 0x1f

/-- Embedding of Python `s.split(sep)` for a one-character separator:
splits at every occurrence of `sep`, keeping empty pieces, and returns
`[[]]` on the empty string (Python: `''.split(sep) == ['']`). -/
def splitOnChar (sep : Char) : List Char → List (List Char)
  | [] => [[]]
  | c :: cs =>
    match splitOnChar sep cs with
    | [] => [[]]
    | r :: rs => if c = sep then [] :: r :: rs else (c :: r) :: rs

/-- Embedding of Python `sep.join(pieces)` for a one-character separator. -/
def joinChar (sep : Char) : List (List Char) → List Char
  | [] => []
  | [x] => x
  | x :: y :: xs => x ++ sep :: joinChar sep (y :: xs)

/-! ### Data model and trace-record parser -/

/-- Python exceptions that can escape the collection pipeline:
`IndexError` (indexing a too-short list) and `IOError` (unreadable file). -/
inductive PyError where
  | indexError
  | ioError
deriving DecidableEq, Repr

/-- Embedding of the dictionary built by `parse` in `collect`
(`src/analyzer/bear.py`): the five fields of a trace record. -/
structure TraceRecord where
  pid : List Char
  ppid : List Char
  functionName : List Char
  directory : List Char
  command : List (List Char)
deriving DecidableEq, Repr

/-- Embedding of the body of `parse` on the content of a trace file:
split on the record separator and take the five fields, the fifth being
split on the unit separator with its final element dropped
(`records[4].split(US)[:-1]`). Fewer than five fields makes the Python
indexing raise `IndexError`, embedded as `Except.error`. -/
def parseContent (content : List Char) : Except PyError TraceRecord :=
  let records := splitOnChar RS content
  if 5 ≤ records.length then
    .ok { pid := records.getD 0 []
          ppid := records.getD 1 []
          functionName := records.getD 2 []
          directory := records.getD 3 []
          command := (splitOnChar US (records.getD 4 [])).dropLast }
  else .error .indexError

/-- Embedding of `parse` on a trace file: `none` models a file whose
`open`/`read` raises `IOError`; `some content` a readable file. -/
def parseFile : Option (List Char) → Except PyError TraceRecord
  | none => .error .ioError
  | some content => parseContent content

deriving instance DecidableEq for Except

/-! ### Regular-expression engine

The recognizer in the source matches Python regular expressions against
the executable name. The patterns used (`known_compiler`,
`cancel_parameter`) are built from literal characters, character classes,
alternation, option, and star, so they are embedded into a small regex
type and matched by Brzozowski derivatives. -/

inductive Rx where
  | empt
  | eps
  | cls (p : Char → Bool)
  | cat (a b : Rx)
  | alt (a b : Rx)
  | star (a : Rx)

def Rx.nullable : Rx → Bool
  | .empt => false
  | .eps => true
  | .cls _ => false
  | .cat a b => a.nullable && b.nullable
  | .alt a b => a.nullable || b.nullable
  | .star _ => true

def Rx.deriv (r : Rx) (c : Char) : Rx :=
  match r with
  | .empt => .empt
  | .eps => .empt
  | .cls p => if p c then .eps else .empt
  | .cat a b =>
    if a.nullable then .alt (.cat (a.deriv c) b) (b.deriv c) else .cat (a.deriv c) b
  | .alt a b => .alt (a.deriv c) (b.deriv c)
  | .star a => .cat (a.deriv c) (.star a)

def Rx.rmatch : Rx → List Char → Bool
  | r, [] => r.nullable
  | r, c :: cs => (r.deriv c).rmatch cs

/-- A literal character. -/
def chrRx (c : Char) : Rx := .cls (fun x => x = c)

/-- A literal string. -/
def strRx (s : List Char) : Rx := s.foldr (fun c r => .cat (chrRx c) r) .eps

/-- Zero-or-one, the regex `?` postfix. -/
def optRx (r : Rx) : Rx := .alt r .eps

/-- Python `re`: an unescaped `.` matches any character except a newline. -/
def dotRx : Rx := .cls (fun c => c ≠ '\n')

/-- All the source patterns are of the form `^...$` and are applied with
`pattern.match(s)`: the match is anchored at the start, and `$` accepts
the end of the string or a position before a trailing newline.  So the
whole string must match the core pattern followed by an optional final
newline. -/
def reFullMatch (core : Rx) (s : List Char) : Bool :=
  (Rx.cat core (optRx (chrRx '\n'))).rmatch s

/-- The regex fragment `([^/]*/)*`: any path prefix. -/
def pathPrefixRx : Rx := .star (.cat (.star (.cls (fun c => c ≠ '/'))) (chrRx '/'))

/-- Pattern `^([^/]*/)*c(c|\+\+)$` from `known_compiler`. -/
def ccPattern : Rx :=
  .cat pathPrefixRx (.cat (chrRx 'c') (.alt (chrRx 'c') (strRx "++".data)))

/-- Pattern `^([^/]*/)*([^-]*-)*g(cc|\+\+)(-[34].[0-9])?$` from
`known_compiler` (the unescaped `.` matches any non-newline character). -/
def gccPattern : Rx :=
  .cat pathPrefixRx
    (.cat (.star (.cat (.star (.cls (fun c => c ≠ '-'))) (chrRx '-')))
      (.cat (chrRx 'g')
        (.cat (.alt (strRx "cc".data) (strRx "++".data))
          (optRx (.cat (chrRx '-')
            (.cat (.cls (fun c => c = '3' || c = '4'))
              (.cat dotRx (.cls (fun c => '0' ≤ c && c ≤ '9')))))))))

/-- Pattern `^([^/]*/)*clang(\+\+)?(-[23].[0-9])?$` from `known_compiler`. -/
def clangPattern : Rx :=
  .cat pathPrefixRx
    (.cat (strRx "clang".data)
      (.cat (optRx (strRx "++".data))
        (optRx (.cat (chrRx '-')
          (.cat (.cls (fun c => c = '2' || c = '3'))
            (.cat dotRx (.cls (fun c => '0' ≤ c && c ≤ '9'))))))))

/-- Pattern `^([^/]*/)*llvm-g(cc|\+\+)$` from `known_compiler`. -/
def llvmPattern : Rx :=
  .cat pathPrefixRx (.cat (strRx "llvm-g".data) (.alt (strRx "cc".data) (strRx "++".data)))

/-- The ordered pattern table of `known_compiler`. -/
def compilerPatterns : List Rx := [ccPattern, gccPattern, clangPattern, llvmPattern]

/-- The pattern table of `cancel_parameter`: `^-cc1$`. -/
def cancelPatterns : List Rx := [strRx "-cc1".data]

/-! ### Compiler recognizer -/

/-- Embedding of `known_compiler`: matches `command[0]` against the pattern
table, returning on the first hit.  On an empty argument vector the Python
indexing `command[0]` raises `IndexError`, embedded as `none`. -/
def known_compiler (command : List (List Char)) : Option Bool :=
  match command with
  | [] => none
  | executable :: _ => some (compilerPatterns.any (fun p => reFullMatch p executable))

/-- Embedding of `cancel_parameter`: true when any argument after the
executable matches a cancellation pattern. -/
def cancel_parameter (command : List (List Char)) : Bool :=
  cancelPatterns.any (fun p => (command.drop 1).any (fun arg => reFullMatch p arg))

/-- The per-record decision of `general_filter`:
`known_compiler(command) and not cancel_parameter(command)`. -/
def recognizer_accepts (command : List (List Char)) : Option Bool :=
  match known_compiler command with
  | none => none
  | some k => some (k && !cancel_parameter command)

/-! ### Path manipulation (`os.path` on POSIX)

`format_record` renders each source-file operand with `os.path.abspath`,
which resolves a relative operand against the collecting process's current
working directory (`os.getcwd()`, here the explicit `cwd` argument) and
normalizes with `posixpath.normpath`. -/

/-- Embedding of `posixpath.isabs`: the path starts with a slash. -/
def isabs (p : List Char) : Bool :=
  match p with
  | c :: _ => c = '/'
  | [] => false

/-- Embedding of `posixpath.join` for two operands. -/
def joinPath (a b : List Char) : List Char :=
  if isabs b then b
  else if a = [] ∨ a.getLast? = some '/' then a ++ b
  else a ++ '/' :: b

/-- The component `..`. -/
def dd : List Char := ['.', '.']

/-- No `..` component occurs in the list. -/
def noDD (l : List (List Char)) : Prop := ∀ c ∈ l, c ≠ dd

/-- Every component is `..`. -/
def allDD (l : List (List Char)) : Prop := ∀ c ∈ l, c = dd

/-- The `..` components form a prefix of the list (the shape
`posixpath.normpath` produces for relative paths). -/
def ddOk : List (List Char) → Prop
  | [] => True
  | c :: cs => if c = dd then ddOk cs else noDD cs

/-- Number of initial slashes `posixpath.normpath` preserves: one, except
that exactly two initial slashes are kept as two (POSIX allows an
implementation-defined meaning for `//`), and three or more collapse to
one. -/
def initialSlashes (p : List Char) : Nat :=
  if isabs p then
    if p.take 2 = ['/', '/'] ∧ ¬ p.take 3 = ['/', '/', '/'] then 2 else 1
  else 0

/-- One step of the component loop of `posixpath.normpath`: skip empty and
`.` components, append a component unless it is a `..` that cancels a
previous real component, in which case pop. -/
def normStep (slashes : Nat) (acc : List (List Char)) (comp : List Char) : List (List Char) :=
  if comp = [] ∨ comp = ['.'] then acc
  else if comp ≠ dd ∨ (slashes = 0 ∧ acc = []) ∨ (acc ≠ [] ∧ acc.getLast? = some dd) then
    acc ++ [comp]
  else if acc ≠ [] then acc.dropLast
  else acc

/-- Invariant maintained by the component loop: components are nonempty
and not `.`, with `..` absent on absolute paths and only as a prefix on
relative ones. -/
def GoodAcc (s : Nat) (acc : List (List Char)) : Prop :=
  (∀ c ∈ acc, c ≠ [] ∧ c ≠ ['.']) ∧ (s = 0 → ddOk acc) ∧ (¬ s = 0 → noDD acc)

/-- Final assembly of `posixpath.normpath`: the preserved initial slashes
followed by the slash-joined surviving components, or `.` when that is
empty (`return path or '.'`). -/
def normAssemble (slashes : Nat) (newComps : List (List Char)) : List Char :=
  if List.replicate slashes '/' ++ joinChar '/' newComps = [] then ['.']
  else List.replicate slashes '/' ++ joinChar '/' newComps

/-- Embedding of `posixpath.normpath`. -/
def normpath (path : List Char) : List Char :=
  if path = [] then ['.']
  else
    normAssemble (initialSlashes path)
      ((splitOnChar '/' path).foldl (normStep (initialSlashes path)) [])

/-- Embedding of `posixpath.abspath`, with the ambient `os.getcwd()` made
an explicit `cwd` argument. -/
def abspath (cwd path : List Char) : List Char :=
  if isabs path then normpath path
  else normpath (joinPath cwd path)

/-! ### Classifier interface and database assembler -/

/-- Action tags produced by the external classifier `analyzer.command`. -/
inductive Action where
  | Compile
  | Link
  | Other
deriving DecidableEq, Repr

/-- The part of the classifier result `format_record` consumes:
`atoms['action']` and `atoms['files']`. -/
structure Atoms where
  action : Action
  files : List (List Char)
deriving DecidableEq, Repr

/-- The classifier is an external collaborator (`analyzer.command.parse`),
consumed as a function from the record's argument vector to its atoms. -/
def Classifier : Type := List (List Char) → Atoms

/-- One compilation-database entry. -/
structure Entry where
  directory : List Char
  command : List Char
  file : List Char
deriving DecidableEq, Repr

/-- Embedding of `join_command` inside `format_record`: `' '.join(args)`,
with no re-quoting. -/
def join_command (args : List (List Char)) : List Char :=
  joinChar ' ' args

/-- Embedding of the body of `format_record` for one record: when the
classified action is `Compile`, one entry per source-file operand, with the
record's directory verbatim, the space-joined original argument vector, and
`os.path.abspath(filename)` resolved against the collecting process's
`cwd`; otherwise no entry. -/
def format_record_one (classify : Classifier) (cwd : List Char) (r : TraceRecord) :
    List Entry :=
  let atoms := classify r.command
  if atoms.action = Action.Compile then
    atoms.files.map (fun filename =>
      { directory := r.directory
        command := join_command r.command
        file := abspath cwd filename })
  else []

/-- Embedding of `format_record` over a record sequence: the generator
yields, for each record in order, the entries of `format_record_one`. -/
def format_record (classify : Classifier) (cwd : List Char) :
    List TraceRecord → List Entry
  | [] => []
  | r :: rs => format_record_one classify cwd r ++ format_record classify cwd rs

/-- Embedding of `general_filter`: keep the records the recognizer accepts.
A record with an empty argument vector makes `known_compiler` raise
`IndexError`, which aborts the whole enumeration. -/
def general_filter : List TraceRecord → Except PyError (List TraceRecord)
  | [] => .ok []
  | r :: rs =>
    match recognizer_accepts r.command with
    | none => .error .indexError
    | some b =>
      match general_filter rs with
      | .error e => .error e
      | .ok kept => .ok (if b then r :: kept else kept)

/-! ### Collection pipeline and entry point -/

/-- Embedding of the eager list comprehension
`[parse(record) for record in glob.iglob(...)]`: every discovered file is
parsed, in discovery order, and the first failure aborts. -/
def parseAll : List (Option (List Char)) → Except PyError (List TraceRecord)
  | [] => .ok []
  | f :: fs =>
    match parseFile f with
    | .error e => .error e
    | .ok r =>
      match parseAll fs with
      | .error e => .error e
      | .ok rs => .ok (r :: rs)

/-- The two shapes `collect` can return: the raw parsed records when
filtering is disabled, or the assembled entries when enabled. -/
inductive CollectOutput where
  | raw (records : List TraceRecord)
  | filtered (entries : List Entry)
deriving DecidableEq, Repr

/-- Embedding of `collect`: parse every discovered trace file eagerly, then
either return the raw records (`filtering` false) or run the
recognizer → classifier → assembler chain (`filtering` true).  The glob
result is embedded as the discovery-ordered list of file contents. -/
def collect (classify : Classifier) (cwd : List Char) (filtering : Bool)
    (files : List (Option (List Char))) : Except PyError CollectOutput :=
  match parseAll files with
  | .error e => .error e
  | .ok generator =>
    if filtering then
      match general_filter generator with
      | .error e => .error e
      | .ok kept => .ok (.filtered (format_record classify cwd kept))
    else .ok (.raw generator)

/-- Outcome of one run of `main`: the returned exit code and the contents
written to the output database file, `none` when nothing was written. -/
structure MainResult where
  exitCode : Int
  written : Option CollectOutput
deriving DecidableEq, Repr

/-- Embedding of `main`: run the build (its exit code is an input here),
collect (`collect(not args.filtering, tmpdir)` — the `-n` flag disables
filtering), then write the database.  Any exception is caught at the top,
a message is printed (outside this embedding) and 127 is returned; since
`collect` runs before `open(args.output, 'w+')`, a collection failure
leaves no output file at all. -/
def bearMain (classify : Classifier) (cwd : List Char) (disableFilter : Bool)
    (buildExit : Int) (files : List (Option (List Char))) : MainResult :=
  match collect classify cwd (!disableFilter) files with
  | .error _ => { exitCode := 127, written := none }
  | .ok out => { exitCode := buildExit, written := some out }

/-- Modelled from the spec: the external CommandClassifier
(`analyzer.command.parse`), whose code is not part of the source tree.  The
spec fixes only its interface — it "labels the invocation
(Compile/Link/Other) and extracts source-file operands".  This model labels
an invocation Compile when the `-c` flag is present and extracts as
source-file operands the arguments carrying a C/C++ source extension. -/
def spec_classifier : Classifier := fun command =>
  if command.any (fun a => a = "-c".data) then
    { action := Action.Compile
      files := command.filter (fun a =>
        ".c".data.isSuffixOf a || ".cc".data.isSuffixOf a ||
        ".cpp".data.isSuffixOf a || ".cxx".data.isSuffixOf a) }
  else { action := Action.Other, files := [] }

/-! ### Concrete scenario data -/

/-- Projection used to state counts of a filtered collection result. -/
def filteredLength : Except PyError CollectOutput → Nat
  | .ok (.filtered es) => es.length
  | _ => 0

/-- A record for `gcc -c foo.c ./foo.c`: two distinct source-file operands
that resolve to the same absolute path. -/
def c1rec : TraceRecord :=
  { pid := "5".data, ppid := "1".data, functionName := "execve".data
    directory := "/build".data
    command := ["gcc".data, "-c".data, "foo.c".data, "./foo.c".data] }

/-- Content of a trace file for `gcc -c a.c b.c` run in `/build`. -/
def c2content : List Char :=
  "1".data ++ [RS] ++ "2".data ++ [RS] ++ "execve".data ++ [RS] ++ "/build".data ++ [RS] ++
    "gcc".data ++ [US] ++ "-c".data ++ [US] ++ "a.c".data ++ [US] ++ "b.c".data ++ [US]

/-- The single record parsed from `c2content`. -/
def c2records : List TraceRecord :=
  [{ pid := "1".data, ppid := "2".data, functionName := "execve".data
     directory := "/build".data
     command := ["gcc".data, "-c".data, "a.c".data, "b.c".data] }]

/-- Content of a well-formed trace file for `gcc a.c` (fifth field ends in
a unit separator). -/
def c4content : List Char :=
  "1".data ++ [RS] ++ "1".data ++ [RS] ++ "execve".data ++ [RS] ++ "/d".data ++ [RS] ++
    "gcc".data ++ [US] ++ "a.c".data ++ [US]

/-- A record for `gcc -c main.c` run in `/build`. -/
def c5rec : TraceRecord :=
  { pid := "7".data, ppid := "1".data, functionName := "execve".data
    directory := "/build".data
    command := ["gcc".data, "-c".data, "main.c".data] }

/-- The entry assembled from `c5rec` with collecting directory `/work`. -/
def c5entry : Entry :=
  { directory := "/build".data
    command := "gcc -c main.c".data
    file := "/work/main.c".data }

/-- A malformed trace file: only three record-separator-delimited fields. -/
def c6bad : List Char := "1".data ++ [RS] ++ "2".data ++ [RS] ++ "x".data

/-- A well-formed five-field trace-file content. -/
def c7content : List Char :=
  "9".data ++ [RS] ++ "1".data ++ [RS] ++ "execve".data ++ [RS] ++ "/b".data ++ [RS] ++
    "cc".data ++ [US] ++ "x.c".data ++ [US]

/-- A record whose trace file recorded a relative working directory. -/
def c9rec : TraceRecord :=
  { pid := "3".data, ppid := "1".data, functionName := "execve".data
    directory := "relative/dir".data
    command := ["gcc".data, "-c".data, "a.c".data] }

/-- The entry assembled from `c9rec` with collecting directory `/work`. -/
def c9entry : Entry :=
  { directory := "relative/dir".data
    command := "gcc -c a.c".data
    file := "/work/a.c".data }

/-- A trace file whose fifth field lacks the trailing unit separator:
`gcc<US>a.c` rather than `gcc<US>a.c<US>`. -/
def c10content : List Char :=
  "1".data ++ [RS] ++ "2".data ++ [RS] ++ "e".data ++ [RS] ++ "/d".data ++ [RS] ++
    "gcc".data ++ [US] ++ "a.c".data

/-! ## Theorems -/

/-! ### Split and join -/

theorem splitOnChar_ne_nil (sep : Char) (s : List Char) : splitOnChar sep s ≠ [] := by
  cases s with
  | nil => simp [splitOnChar]
  | cons c cs =>
    simp only [splitOnChar]
    cases splitOnChar sep cs with
    | nil => simp
    | cons r rs =>
      by_cases h : c = sep <;> simp [h]

theorem splitOnChar_no_sep (sep : Char) (s : List Char) :
    ∀ piece ∈ splitOnChar sep s, sep ∉ piece := by
  induction s with
  | nil => simp [splitOnChar]
  | cons c cs ih =>
    cases hs : splitOnChar sep cs with
    | nil => exact absurd hs (splitOnChar_ne_nil sep cs)
    | cons r rs =>
      rw [hs] at ih
      intro piece hp
      simp only [splitOnChar, hs] at hp
      by_cases h : c = sep
      · rw [if_pos h] at hp
        rcases List.mem_cons.mp hp with h1 | h1
        · subst h1; simp
        · exact ih piece h1
      · rw [if_neg h] at hp
        rcases List.mem_cons.mp hp with h1 | h1
        · subst h1
          intro hmem
          rcases List.mem_cons.mp hmem with h2 | h2
          · exact h h2.symm
          · exact ih r (List.mem_cons_self r rs) h2
        · exact ih piece (List.mem_cons_of_mem r h1)

/-- Splitting then joining is the identity: `sep.join(s.split(sep)) == s`. -/
theorem joinChar_splitOnChar (sep : Char) (s : List Char) :
    joinChar sep (splitOnChar sep s) = s := by
  induction s with
  | nil => simp [splitOnChar, joinChar]
  | cons c cs ih =>
    cases hs : splitOnChar sep cs with
    | nil => exact absurd hs (splitOnChar_ne_nil sep cs)
    | cons r rs =>
      rw [hs] at ih
      simp only [splitOnChar, hs]
      by_cases h : c = sep
      · rw [if_pos h]
        subst h
        simp [joinChar, ih]
      · rw [if_neg h]
        cases rs with
        | nil =>
          simp only [joinChar] at ih ⊢
          rw [ih]
        | cons r2 rs2 =>
          simp only [joinChar] at ih ⊢
          rw [List.cons_append, ih]

/-- Appending a final separator appends a final empty piece to the split. -/
theorem splitOnChar_append_sep (sep : Char) (s : List Char) :
    splitOnChar sep (s ++ [sep]) = splitOnChar sep s ++ [[]] := by
  induction s with
  | nil => simp [splitOnChar]
  | cons c cs ih =>
    cases hs : splitOnChar sep cs with
    | nil => exact absurd hs (splitOnChar_ne_nil sep cs)
    | cons r rs =>
      show splitOnChar sep (c :: (cs ++ [sep])) = _
      simp only [splitOnChar, ih, hs]
      by_cases h : c = sep <;> simp [h]

/-- A string with no separator splits into a single piece. -/
theorem splitOnChar_of_not_mem (sep : Char) (s : List Char) (h : sep ∉ s) :
    splitOnChar sep s = [s] := by
  induction s with
  | nil => simp [splitOnChar]
  | cons c cs ih =>
    simp only [splitOnChar]
    rw [ih (fun hm => h (List.mem_cons_of_mem c hm))]
    have hc : c ≠ sep := fun hc => h (hc ▸ List.mem_cons_self c cs)
    simp [hc]

theorem splitOnChar_sep_free_front (sep : Char) (a t : List Char) (ha : sep ∉ a) :
    splitOnChar sep (a ++ sep :: t) = a :: splitOnChar sep t := by
  induction a with
  | nil =>
    simp only [List.nil_append, splitOnChar]
    cases hs : splitOnChar sep t with
    | nil => exact absurd hs (splitOnChar_ne_nil sep t)
    | cons r rs => simp
  | cons x a' ih =>
    have hx : x ≠ sep := fun hc => ha (hc ▸ List.mem_cons_self x a')
    have ha' : sep ∉ a' := fun hm => ha (List.mem_cons_of_mem x hm)
    show splitOnChar sep (x :: (a' ++ sep :: t)) = _
    rw [splitOnChar, ih ha']
    simp [hx]

/-- Joining then splitting is the identity on nonempty piece lists whose
pieces are separator-free. -/
theorem splitOnChar_joinChar (sep : Char) (cs : List (List Char)) (hne : cs ≠ [])
    (hfree : ∀ c ∈ cs, sep ∉ c) :
    splitOnChar sep (joinChar sep cs) = cs := by
  induction cs with
  | nil => exact absurd rfl hne
  | cons c cs' ih =>
    cases cs' with
    | nil =>
      simp only [joinChar]
      exact splitOnChar_of_not_mem sep c (hfree c (by simp))
    | cons c2 t =>
      simp only [joinChar]
      rw [splitOnChar_sep_free_front sep c _ (hfree c (by simp))]
      rw [ih (by simp) (fun x hx => hfree x (List.mem_cons_of_mem c hx))]

theorem splitOnChar_replicate_front (sep : Char) (n : Nat) (rest : List Char) :
    splitOnChar sep (List.replicate n sep ++ rest) =
      List.replicate n [] ++ splitOnChar sep rest := by
  induction n with
  | zero => simp
  | succ k ih =>
    have h1 : List.replicate (k+1) sep ++ rest = sep :: (List.replicate k sep ++ rest) := by
      simp [List.replicate_succ]
    rw [h1]
    obtain ⟨r, rs, hrs⟩ := List.exists_cons_of_ne_nil
      (show List.replicate k ([] : List Char) ++ splitOnChar sep rest ≠ [] from by
        simp [splitOnChar_ne_nil])
    rw [splitOnChar, ih, hrs]
    simp [List.replicate_succ, ← hrs]

/-! ### Recognizer evaluations -/

example : recognizer_accepts ["gcc".data] = some true := by decide
example : recognizer_accepts ["gcc-4.8".data] = some true := by decide
example : recognizer_accepts ["/usr/bin/clang++".data] = some true := by decide
example : recognizer_accepts ["python".data] = some false := by decide
example : recognizer_accepts ["gcc".data, "-cc1".data] = some false := by decide

/-! ### Path normalization -/

example : normpath "".data = ".".data := by decide
example : normpath "/a/./b//c/../d".data = "/a/b/d".data := by decide
example : normpath "//x".data = "//x".data := by decide
example : normpath "///x".data = "/x".data := by decide
example : normpath "a/..".data = ".".data := by decide
example : normpath "../a/../..".data = "../..".data := by decide
example : abspath "/work".data "foo.c".data = "/work/foo.c".data := by decide
example : abspath "/work".data "./foo.c".data = "/work/foo.c".data := by decide
example : abspath "/work".data "/abs/x.c".data = "/abs/x.c".data := by decide

theorem mem_of_getLast_eq {α : Type} {l : List α} {a : α} (h : l.getLast? = some a) :
    a ∈ l := by
  cases l with
  | nil => simp at h
  | cons x t =>
    have hne : x :: t ≠ [] := by simp
    rw [List.getLast?_eq_getLast _ hne] at h
    have := List.getLast_mem hne
    rwa [Option.some_inj.mp h] at this

theorem mem_dropLast {α : Type} {l : List α} {a : α} (h : a ∈ l.dropLast) : a ∈ l :=
  List.dropLast_subset l h

theorem noDD_ddOk {l : List (List Char)} (h : noDD l) : ddOk l := by
  cases l with
  | nil => trivial
  | cons c cs =>
    have hc : c ≠ dd := h c (by simp)
    simp only [ddOk, if_neg hc]
    exact fun x hx => h x (by simp [hx])

theorem allDD_ddOk {l : List (List Char)} (h : allDD l) : ddOk l := by
  induction l with
  | nil => trivial
  | cons c cs ih =>
    have hc : c = dd := h c (by simp)
    simp only [ddOk, if_pos hc]
    exact ih (fun x hx => h x (by simp [hx]))

theorem ddOk_append_dd {acc rest : List (List Char)} (h : ddOk (acc ++ dd :: rest)) :
    allDD acc := by
  induction acc with
  | nil => intro c hc; simp at hc
  | cons a acc' ih =>
    simp only [List.cons_append, ddOk] at h
    by_cases ha : a = dd
    · rw [if_pos ha] at h
      intro c hc
      rcases List.mem_cons.mp hc with h1 | h1
      · rw [h1, ha]
      · exact ih h c h1
    · rw [if_neg ha] at h
      exact absurd rfl (h dd (by simp))

theorem ddOk_getLast {l : List (List Char)} (h : ddOk l) (hl : l.getLast? = some dd) :
    allDD l := by
  induction l with
  | nil => simp at hl
  | cons a t ih =>
    cases t with
    | nil =>
      simp only [List.getLast?_singleton, Option.some_inj] at hl
      intro c hc
      rcases List.mem_cons.mp hc with h1 | h1
      · rw [h1, hl]
      · simp at h1
    | cons b t' =>
      have hl' : (b :: t').getLast? = some dd := by
        rwa [List.getLast?_cons_cons] at hl
      simp only [ddOk] at h
      by_cases ha : a = dd
      · rw [if_pos ha] at h
        intro c hc
        rcases List.mem_cons.mp hc with h1 | h1
        · rw [h1, ha]
        · exact ih h hl' c h1
      · rw [if_neg ha] at h
        exact absurd rfl (h dd (mem_of_getLast_eq hl'))

theorem allDD_last {acc : List (List Char)} (h : allDD acc) (hne : acc ≠ []) :
    acc.getLast? = some dd := by
  rw [List.getLast?_eq_getLast _ hne]
  exact congrArg some (h _ (List.getLast_mem hne))

theorem ddOk_snoc_nondd {l : List (List Char)} {c : List Char} (h : ddOk l) (hc : c ≠ dd) :
    ddOk (l ++ [c]) := by
  induction l with
  | nil =>
    simp only [List.nil_append, ddOk, if_neg hc]
    intro x hx; simp at hx
  | cons a t ih =>
    simp only [List.cons_append, ddOk] at h ⊢
    by_cases ha : a = dd
    · rw [if_pos ha] at h ⊢
      exact ih h
    · rw [if_neg ha] at h ⊢
      intro x hx
      rcases List.mem_append.mp hx with h2 | h2
      · exact h x h2
      · simp at h2; rw [h2]; exact hc

theorem ddOk_dropLast {l : List (List Char)} (h : ddOk l) : ddOk l.dropLast := by
  induction l with
  | nil => trivial
  | cons a t ih =>
    cases t with
    | nil => trivial
    | cons b t' =>
      rw [List.dropLast_cons₂]
      simp only [ddOk] at h ⊢
      by_cases ha : a = dd
      · rw [if_pos ha] at h ⊢
        exact ih h
      · rw [if_neg ha] at h ⊢
        exact fun x hx => h x (mem_dropLast hx)

theorem normStep_good {s : Nat} {acc : List (List Char)} {comp : List Char}
    (h : GoodAcc s acc) : GoodAcc s (normStep s acc comp) := by
  obtain ⟨hg, h0, h1⟩ := h
  unfold normStep
  by_cases hskip : comp = [] ∨ comp = ['.']
  · rw [if_pos hskip]; exact ⟨hg, h0, h1⟩
  · rw [if_neg hskip]
    push_neg at hskip
    by_cases happ : comp ≠ dd ∨ (s = 0 ∧ acc = []) ∨ (acc ≠ [] ∧ acc.getLast? = some dd)
    · rw [if_pos happ]
      refine ⟨?_, ?_, ?_⟩
      · intro c hc
        rcases List.mem_append.mp hc with h2 | h2
        · exact hg c h2
        · simp at h2; rw [h2]; exact hskip
      · intro hs0
        by_cases hdd : comp = dd
        · subst hdd
          rcases happ with h2 | h2 | h2
          · exact absurd rfl h2
          · rw [h2.2]
            exact allDD_ddOk (fun c hc => by simpa using hc)
          · have hall := ddOk_getLast (h0 hs0) h2.2
            refine allDD_ddOk (fun c hc => ?_)
            rcases List.mem_append.mp hc with h3 | h3
            · exact hall c h3
            · simpa using h3
        · exact ddOk_snoc_nondd (h0 hs0) hdd
      · intro hs1
        by_cases hdd : comp = dd
        · subst hdd
          rcases happ with h2 | h2 | h2
          · exact absurd rfl h2
          · exact absurd h2.1 hs1
          · exact absurd rfl (h1 hs1 dd (mem_of_getLast_eq h2.2))
        · intro c hc
          rcases List.mem_append.mp hc with h2 | h2
          · exact h1 hs1 c h2
          · simp at h2; rw [h2]; exact hdd
    · rw [if_neg happ]
      by_cases hne : acc ≠ []
      · rw [if_pos hne]
        exact ⟨fun c hc => hg c (mem_dropLast hc),
               fun hs0 => ddOk_dropLast (h0 hs0),
               fun hs1 c hc => h1 hs1 c (mem_dropLast hc)⟩
      · rw [if_neg hne]; exact ⟨hg, h0, h1⟩

theorem foldl_normStep_good (s : Nat) (comps : List (List Char)) :
    ∀ acc, GoodAcc s acc → GoodAcc s (comps.foldl (normStep s) acc) := by
  induction comps with
  | nil => exact fun acc h => h
  | cons c cs ih => exact fun acc h => ih _ (normStep_good h)

theorem normStep_mem {s : Nat} {acc : List (List Char)} {comp c : List Char}
    (h : c ∈ normStep s acc comp) : c ∈ acc ∨ c = comp := by
  unfold normStep at h
  split at h
  · exact .inl h
  · split at h
    · rcases List.mem_append.mp h with h1 | h1
      · exact .inl h1
      · simp at h1; exact .inr h1
    · split at h
      · exact .inl (mem_dropLast h)
      · exact .inl h

theorem foldl_normStep_mem (s : Nat) (comps : List (List Char)) :
    ∀ acc, ∀ c ∈ comps.foldl (normStep s) acc, c ∈ acc ∨ c ∈ comps := by
  induction comps with
  | nil => exact fun acc c h => .inl h
  | cons x cs ih =>
    intro acc c h
    rcases ih _ c h with h1 | h1
    · rcases normStep_mem h1 with h2 | h2
      · exact .inl h2
      · exact .inr (by simp [h2])
    · exact .inr (by simp [h1])

theorem foldl_normStep_empties (s : Nat) (n : Nat) (l : List (List Char)) (acc : List (List Char)) :
    (List.replicate n [] ++ l).foldl (normStep s) acc = l.foldl (normStep s) acc := by
  induction n generalizing acc with
  | zero => simp
  | succ k ih =>
    rw [List.replicate_succ, List.cons_append, List.foldl_cons]
    rw [show normStep s acc [] = acc from by simp [normStep]]
    exact ih acc

theorem foldl_normStep_id (s : Nat) (cs : List (List Char)) :
    ∀ acc, (∀ c ∈ cs, c ≠ [] ∧ c ≠ ['.']) → (s = 0 → ddOk (acc ++ cs)) →
      (¬ s = 0 → noDD cs) → cs.foldl (normStep s) acc = acc ++ cs := by
  induction cs with
  | nil => simp
  | cons c t ih =>
    intro acc hg h0 h1
    have hcg := hg c (by simp)
    have hstep : normStep s acc c = acc ++ [c] := by
      unfold normStep
      rw [if_neg (by push_neg; exact hcg)]
      by_cases hdd : c = dd
      · subst hdd
        by_cases hs : s = 0
        · have hall : allDD acc := ddOk_append_dd (h0 hs)
          by_cases hacc : acc = []
          · rw [if_pos (Or.inr (Or.inl ⟨hs, hacc⟩))]
          · rw [if_pos (Or.inr (Or.inr ⟨hacc, allDD_last hall hacc⟩))]
        · exact absurd rfl (h1 hs dd (by simp))
      · rw [if_pos (Or.inl hdd)]
    rw [List.foldl_cons, hstep]
    rw [ih (acc ++ [c]) (fun x hx => hg x (by simp [hx]))
      (fun hs => by rw [List.append_assoc]; simpa using h0 hs)
      (fun hs x hx => h1 hs x (by simp [hx]))]
    simp

theorem initialSlashes_le (p : List Char) : initialSlashes p ≤ 2 := by
  unfold initialSlashes
  split
  · split <;> omega
  · omega

theorem initialSlashes_cons_ne (a : Char) (t : List Char) (ha : a ≠ '/') :
    initialSlashes (a :: t) = 0 := by
  unfold initialSlashes
  rw [if_neg (by simp [isabs, ha])]

theorem initialSlashes_slash_cons (a : Char) (t : List Char) (ha : a ≠ '/') :
    initialSlashes ('/' :: a :: t) = 1 := by
  unfold initialSlashes
  rw [if_pos (by simp [isabs])]
  rw [if_neg (by simp [List.take, ha])]

theorem initialSlashes_two_cons (a : Char) (t : List Char) (ha : a ≠ '/') :
    initialSlashes ('/' :: '/' :: a :: t) = 2 := by
  unfold initialSlashes
  rw [if_pos (by simp [isabs])]
  rw [if_pos (by simp [List.take, ha])]

theorem joinChar_head (sep a : Char) (c' : List Char) (t : List (List Char)) :
    ∃ rest, joinChar sep ((a :: c') :: t) = a :: rest := by
  cases t with
  | nil => exact ⟨c', rfl⟩
  | cons x xs => exact ⟨c' ++ sep :: joinChar sep (x :: xs), rfl⟩

/-- A path of the canonical shape `posixpath.normpath` emits — at most two
initial slashes followed by slash-joined components that are nonempty, not
`.`, slash-free, with `..` only as allowed — is a fixed point of
`normpath`. -/
theorem normpath_canonical (s : Nat) (cs : List (List Char))
    (hs : s ≤ 2)
    (hg : ∀ c ∈ cs, c ≠ [] ∧ c ≠ ['.'])
    (hfree : ∀ c ∈ cs, '/' ∉ c)
    (h0 : s = 0 → ddOk cs)
    (h1 : ¬ s = 0 → noDD cs)
    (hnz : ¬ (s = 0 ∧ cs = [])) :
    normpath (List.replicate s '/' ++ joinChar '/' cs) =
      List.replicate s '/' ++ joinChar '/' cs := by
  cases cs with
  | nil =>
    have hs0 : ¬ s = 0 := fun h => hnz ⟨h, rfl⟩
    match s, hs, hs0 with
    | 1, _, _ => decide
    | 2, _, _ => decide
  | cons c t =>
    obtain ⟨hcne, _⟩ := hg c (by simp)
    obtain ⟨a, c', hac⟩ := List.exists_cons_of_ne_nil hcne
    have ha : a ≠ '/' := fun h => by
      apply hfree c (by simp)
      rw [hac, h]; simp
    obtain ⟨rest, hrest⟩ := joinChar_head '/' a c' t
    have hJ : joinChar '/' (c :: t) = a :: rest := by rw [hac]; exact hrest
    have hPne : List.replicate s '/' ++ joinChar '/' (c :: t) ≠ [] := by
      rw [hJ]; simp
    have hslash : initialSlashes (List.replicate s '/' ++ joinChar '/' (c :: t)) = s := by
      rw [hJ]
      match s, hs with
      | 0, _ => simpa using initialSlashes_cons_ne a rest ha
      | 1, _ => simpa using initialSlashes_slash_cons a rest ha
      | 2, _ =>
        show initialSlashes ('/' :: '/' :: a :: rest) = 2
        exact initialSlashes_two_cons a rest ha
    have hsplit : splitOnChar '/' (List.replicate s '/' ++ joinChar '/' (c :: t)) =
        List.replicate s [] ++ (c :: t) := by
      rw [splitOnChar_replicate_front]
      rw [splitOnChar_joinChar '/' (c :: t) (by simp) hfree]
    have hfold : (List.replicate s [] ++ (c :: t)).foldl (normStep s) [] = c :: t := by
      rw [foldl_normStep_empties]
      rw [foldl_normStep_id s (c :: t) [] hg (fun hz => by simpa using h0 hz) h1]
      simp
    unfold normpath
    rw [if_neg hPne, hslash, hsplit, hfold]
    unfold normAssemble
    rw [if_neg hPne]

/-- `posixpath.normpath` is idempotent. -/
theorem normpath_idem (p : List Char) : normpath (normpath p) = normpath p := by
  by_cases hp : p = []
  · subst hp; decide
  · have hGood : GoodAcc (initialSlashes p)
        ((splitOnChar '/' p).foldl (normStep (initialSlashes p)) []) := by
      refine foldl_normStep_good _ _ [] ⟨by simp, fun _ => trivial, fun _ => by simp [noDD]⟩
    obtain ⟨hg, h0, h1⟩ := hGood
    have hfree : ∀ c ∈ (splitOnChar '/' p).foldl (normStep (initialSlashes p)) [],
        '/' ∉ c := by
      intro c hc
      rcases foldl_normStep_mem _ _ [] c hc with h | h
      · simp at h
      · exact splitOnChar_no_sep '/' p c h
    by_cases hz : initialSlashes p = 0 ∧
        (splitOnChar '/' p).foldl (normStep (initialSlashes p)) [] = []
    · have : normpath p = ['.'] := by
        unfold normpath
        rw [if_neg hp, hz.2, hz.1]
        decide
      rw [this]; decide
    · have hstep : normpath p = List.replicate (initialSlashes p) '/' ++
          joinChar '/' ((splitOnChar '/' p).foldl (normStep (initialSlashes p)) []) := by
        unfold normpath normAssemble
        rw [if_neg hp]
        rw [if_neg ?hne]
        case hne =>
          intro hcon
          rcases List.append_eq_nil.mp hcon with ⟨ha, hb⟩
          refine hz ⟨?_, ?_⟩
          · cases h : initialSlashes p with
            | zero => rfl
            | succ k => rw [h] at ha; simp [List.replicate_succ] at ha
          · cases hcs : (splitOnChar '/' p).foldl (normStep (initialSlashes p)) [] with
            | nil => rfl
            | cons c t =>
              rw [hcs] at hb hg
              obtain ⟨hcne, _⟩ := hg c (by simp)
              obtain ⟨a, c', hac⟩ := List.exists_cons_of_ne_nil hcne
              obtain ⟨rest, hrest⟩ := joinChar_head '/' a c' t
              rw [hac] at hb
              rw [hrest] at hb
              simp at hb
      rw [hstep]
      exact normpath_canonical (initialSlashes p) _ (initialSlashes_le p) hg hfree h0 h1
        (fun hcon => hz hcon)

/-- `normpath` of an absolute path is absolute. -/
theorem normpath_isabs {p : List Char} (h : isabs p = true) : isabs (normpath p) = true := by
  have hp : p ≠ [] := by cases p with | nil => simp [isabs] at h | cons a t => simp
  have h1 : 1 ≤ initialSlashes p := by
    unfold initialSlashes
    rw [if_pos h]
    split <;> omega
  obtain ⟨k, hk⟩ : ∃ k, initialSlashes p = k + 1 := ⟨initialSlashes p - 1, by omega⟩
  unfold normpath normAssemble
  rw [if_neg hp, hk, List.replicate_succ]
  rw [if_neg (by simp)]
  simp [isabs]

/-- `posixpath.join` keeps absoluteness of the left operand. -/
theorem joinPath_isabs {a b : List Char} (ha : isabs a = true) :
    isabs (joinPath a b) = true := by
  unfold joinPath
  obtain ⟨x, t, hx⟩ : ∃ x t, a = x :: t := by
    cases a with
    | nil => simp [isabs] at ha
    | cons x t => exact ⟨x, t, rfl⟩
  have hxs : x = '/' := by rw [hx] at ha; simpa [isabs] using ha
  split
  · assumption
  · split
    · rename_i hor
      rcases hor with hnil | hlast
      · rw [hnil] at hx; simp at hx
      · rw [hx, hxs]; simp [isabs]
    · rw [hx, hxs]; simp [isabs]

/-- Every output of `os.path.abspath` run from an absolute working
directory is absolute. -/
theorem abspath_isabs {cwd : List Char} (p : List Char) (h : isabs cwd = true) :
    isabs (abspath cwd p) = true := by
  unfold abspath
  split
  · exact normpath_isabs (by assumption)
  · exact normpath_isabs (joinPath_isabs h)

/-- Every output of `os.path.abspath` is a fixed point of `normpath`:
it is filesystem-normalized. -/
theorem abspath_normalized (cwd p : List Char) :
    normpath (abspath cwd p) = abspath cwd p := by
  unfold abspath
  split <;> exact normpath_idem _

/-! ### Pipeline lemmas -/

theorem parseAll_length {files : List (Option (List Char))} {records : List TraceRecord}
    (h : parseAll files = .ok records) : records.length = files.length := by
  induction files generalizing records with
  | nil =>
    unfold parseAll at h
    simp only [Except.ok.injEq] at h
    rw [← h]
    rfl
  | cons f fs ih =>
    unfold parseAll at h
    cases hf : parseFile f with
    | error e => rw [hf] at h; simp at h
    | ok r =>
      rw [hf] at h
      cases ha : parseAll fs with
      | error e => rw [ha] at h; simp at h
      | ok rs =>
        rw [ha] at h
        simp only [Except.ok.injEq] at h
        rw [← h]
        simp [ih ha]

theorem parseAll_error {files : List (Option (List Char))} {f : Option (List Char)}
    (hf : f ∈ files) {e : PyError} (he : parseFile f = .error e) :
    ∃ e2, parseAll files = .error e2 := by
  induction files with
  | nil => simp at hf
  | cons g fs ih =>
    unfold parseAll
    cases hg : parseFile g with
    | error e3 => exact ⟨e3, rfl⟩
    | ok r =>
      rcases List.mem_cons.mp hf with h1 | h1
      · rw [← h1, he] at hg; simp at hg
      · obtain ⟨e2, h2⟩ := ih h1
        rw [h2]
        exact ⟨e2, rfl⟩

theorem format_record_one_length (classify : Classifier) (cwd : List Char) (r : TraceRecord) :
    (format_record_one classify cwd r).length =
      if (classify r.command).action = Action.Compile
        then (classify r.command).files.length else 0 := by
  unfold format_record_one
  by_cases hC : (classify r.command).action = Action.Compile
  · rw [if_pos hC, if_pos hC]; simp
  · rw [if_neg hC, if_neg hC]; rfl

theorem format_record_one_map_file (classify : Classifier) (cwd : List Char) (r : TraceRecord) :
    (format_record_one classify cwd r).map Entry.file =
      if (classify r.command).action = Action.Compile
        then (classify r.command).files.map (abspath cwd) else [] := by
  unfold format_record_one
  by_cases hC : (classify r.command).action = Action.Compile
  · rw [if_pos hC, if_pos hC]; simp [List.map_map]
  · rw [if_neg hC, if_neg hC]; rfl

theorem format_record_length (classify : Classifier) (cwd : List Char)
    (records : List TraceRecord) :
    (format_record classify cwd records).length =
      (records.map (fun r => (format_record_one classify cwd r).length)).sum := by
  induction records with
  | nil => rfl
  | cons r rs ih => simp [format_record, ih]

/-! ### Claim theorems -/

/-- C1, counterexample: a Recognizer-accepted record classified Compile with
two distinct source-file operands (`foo.c` and `./foo.c`) yields two entries
whose `file` values are equal, not pairwise differing — both operands
resolve to `/work/foo.c`. -/
theorem C1_counterexample :
    recognizer_accepts c1rec.command = some true ∧
    (spec_classifier c1rec.command).action = Action.Compile ∧
    (spec_classifier c1rec.command).files = ["foo.c".data, "./foo.c".data] ∧
    ¬ "foo.c".data = "./foo.c".data ∧
    (format_record_one spec_classifier "/work".data c1rec).map Entry.file =
      ["/work/foo.c".data, "/work/foo.c".data] := by
  decide

/-- C1 (amended): for a record whose classified action is Compile with k
source-file operands, the assembler yields exactly k entries, one per
operand in order, all sharing the record's directory and the space-joined
original argument vector as command, the i-th entry's file being the
absolute resolution of the i-th operand (distinct operands may resolve to
the same file value); for any other action it yields zero entries. -/
theorem C1_assembler_entries (classify : Classifier) (cwd : List Char) (r : TraceRecord) :
    ((classify r.command).action = Action.Compile →
      (format_record_one classify cwd r).length = (classify r.command).files.length ∧
      (format_record_one classify cwd r).map Entry.file =
        (classify r.command).files.map (abspath cwd) ∧
      ∀ e ∈ format_record_one classify cwd r,
        e.directory = r.directory ∧ e.command = join_command r.command) ∧
    (¬ (classify r.command).action = Action.Compile →
      format_record_one classify cwd r = []) := by
  constructor
  · intro hC
    refine ⟨?_, ?_, ?_⟩
    · rw [format_record_one_length, if_pos hC]
    · rw [format_record_one_map_file, if_pos hC]
    · intro e he
      unfold format_record_one at he
      rw [if_pos hC] at he
      obtain ⟨op, _, heq⟩ := List.mem_map.mp he
      rw [← heq]
      exact ⟨rfl, rfl⟩
  · intro hC
    unfold format_record_one
    rw [if_neg hC]

/-- C1 witness: the amended theorem applied to the concrete Compile record
`c1rec` under collecting directory `/work`. -/
theorem C1_assembler_entries_witness :
    (format_record_one spec_classifier "/work".data c1rec).length =
      (spec_classifier c1rec.command).files.length :=
  ((C1_assembler_entries spec_classifier "/work".data c1rec).1 (by decide)).1

/-- C2, counterexample: one trace file recording `gcc -c a.c b.c` — a
Compile invocation with two source-file operands — makes filtered
collection return two entries, exceeding the trace-file count of one, so
the filtered entry count is not bounded by the number of trace files. -/
theorem C2_counterexample :
    filteredLength (collect spec_classifier "/work".data true [some c2content]) = 2 ∧
    ([some c2content] : List (Option (List Char))).length = 1 ∧
    ¬ (2 ≤ 1) := by
  decide

/-- C2 (amended): when every trace file parses, collection with filtering
disabled returns exactly one record per trace file, and collection with
filtering enabled returns one entry per (accepted record, Compile
source-file operand) pair — a total that can exceed the trace-file count. -/
theorem C2_collect_counts (classify : Classifier) (cwd : List Char)
    (files : List (Option (List Char))) (records : List TraceRecord)
    (hok : parseAll files = .ok records) :
    collect classify cwd false files = .ok (.raw records) ∧
    records.length = files.length ∧
    (∀ kept, general_filter records = .ok kept →
      collect classify cwd true files = .ok (.filtered (format_record classify cwd kept)) ∧
      (format_record classify cwd kept).length =
        (kept.map (fun r => if (classify r.command).action = Action.Compile
          then (classify r.command).files.length else 0)).sum) := by
  refine ⟨?_, parseAll_length hok, ?_⟩
  · simp [collect, hok]
  · intro kept hkept
    constructor
    · simp [collect, hok, hkept]
    · rw [format_record_length]
      simp only [format_record_one_length]

/-- C2 witness: the amended theorem applied to one well-formed trace file. -/
theorem C2_collect_counts_witness :
    c2records.length = ([some c2content] : List (Option (List Char))).length :=
  (C2_collect_counts spec_classifier "/work".data [some c2content] c2records
    (by decide)).2.1

/-- C3: the recognizer accepts `gcc`, `gcc-4.8` and `/usr/bin/clang++`,
rejects `python`, and rejects any vector whose executable is `gcc` but
which carries `-cc1` as a later argument. -/
theorem C3_recognizer_cases :
    recognizer_accepts ["gcc".data] = some true ∧
    recognizer_accepts ["gcc-4.8".data] = some true ∧
    recognizer_accepts ["/usr/bin/clang++".data] = some true ∧
    recognizer_accepts ["python".data] = some false ∧
    (∀ rest : List (List Char), "-cc1".data ∈ rest →
      recognizer_accepts ("gcc".data :: rest) = some false) := by
  refine ⟨by decide, by decide, by decide, by decide, ?_⟩
  intro rest hrest
  have hc : cancel_parameter ("gcc".data :: rest) = true := by
    unfold cancel_parameter
    simp only [cancelPatterns, List.any_cons, List.any_nil, Bool.or_false, List.drop_succ_cons,
      List.drop_zero]
    rw [List.any_eq_true]
    exact ⟨"-cc1".data, hrest, by decide⟩
  unfold recognizer_accepts known_compiler
  rw [hc]
  simp

/-- C3 witness: the `-cc1` rejection instantiated at the vector
`gcc -cc1`. -/
theorem C3_recognizer_cases_witness :
    recognizer_accepts ("gcc".data :: ["-cc1".data]) = some false :=
  C3_recognizer_cases.2.2.2.2 ["-cc1".data] (by decide)

/-- C4: for a well-formed trace file content — at least five fields, the
fifth ending in a unit separator — parsing succeeds and re-joining the
parsed argument vector with the unit separator plus one trailing unit
separator reproduces the fifth field byte for byte. -/
theorem C4_roundtrip (content s : List Char)
    (h5 : 5 ≤ (splitOnChar RS content).length)
    (hUS : (splitOnChar RS content).getD 4 [] = s ++ [US]) :
    ∃ r, parseContent content = .ok r ∧
      joinChar US r.command ++ [US] = (splitOnChar RS content).getD 4 [] := by
  have hok : parseContent content = .ok
      { pid := (splitOnChar RS content).getD 0 []
        ppid := (splitOnChar RS content).getD 1 []
        functionName := (splitOnChar RS content).getD 2 []
        directory := (splitOnChar RS content).getD 3 []
        command := (splitOnChar US ((splitOnChar RS content).getD 4 [])).dropLast } := by
    unfold parseContent
    rw [if_pos h5]
  refine ⟨_, hok, ?_⟩
  show joinChar US ((splitOnChar US ((splitOnChar RS content).getD 4 [])).dropLast) ++ [US] = _
  rw [hUS, splitOnChar_append_sep, List.dropLast_concat, joinChar_splitOnChar]

/-- C4 witness: the round trip on the concrete trace file `c4content`. -/
theorem C4_roundtrip_witness :
    ∃ r, parseContent c4content = .ok r ∧
      joinChar US r.command ++ [US] = (splitOnChar RS c4content).getD 4 [] :=
  C4_roundtrip c4content ("gcc".data ++ [US] ++ "a.c".data) (by decide) (by decide)

/-- C5: when the collecting process's working directory is absolute, every
emitted entry's file is an absolute, filesystem-normalized (`normpath`
fixed point) path obtained by resolving a source-file operand against the
collecting process's working directory; the record's recorded directory
does not enter the computation — altering it leaves every file value
unchanged. -/
theorem C5_file_resolution (classify : Classifier) (cwd : List Char) (r : TraceRecord)
    (habs : isabs cwd = true) :
    (∀ e ∈ format_record_one classify cwd r,
      isabs e.file = true ∧ normpath e.file = e.file ∧
      ∃ op ∈ (classify r.command).files, e.file = abspath cwd op) ∧
    (∀ d, (format_record_one classify cwd { r with directory := d }).map Entry.file =
      (format_record_one classify cwd r).map Entry.file) := by
  constructor
  · intro e he
    unfold format_record_one at he
    by_cases hC : (classify r.command).action = Action.Compile
    · rw [if_pos hC] at he
      obtain ⟨op, hop, heq⟩ := List.mem_map.mp he
      rw [← heq]
      exact ⟨abspath_isabs op habs, abspath_normalized cwd op, op, hop, rfl⟩
    · rw [if_neg hC] at he
      simp at he
  · intro d
    rw [format_record_one_map_file, format_record_one_map_file]

/-- C5 witness: the invariant applied to the concrete entry assembled from
`c5rec` under collecting directory `/work`. -/
theorem C5_file_resolution_witness :
    isabs c5entry.file = true ∧ normpath c5entry.file = c5entry.file ∧
      ∃ op ∈ (spec_classifier c5rec.command).files,
        c5entry.file = abspath "/work".data op :=
  (C5_file_resolution spec_classifier "/work".data c5rec (by decide)).1 c5entry (by decide)

/-- C6: when any discovered trace file fails to parse, the whole run
returns exit code 127 (non-zero) and writes no database file at all. -/
theorem C6_abort_on_bad_file (classify : Classifier) (cwd : List Char)
    (disableFilter : Bool) (buildExit : Int) (files : List (Option (List Char)))
    (h : ∃ f ∈ files, ∃ e, parseFile f = .error e) :
    bearMain classify cwd disableFilter buildExit files =
      { exitCode := 127, written := none } ∧ ¬ (127 : Int) = 0 := by
  obtain ⟨f, hf, e, he⟩ := h
  obtain ⟨e2, h2⟩ := parseAll_error hf he
  constructor
  · unfold bearMain collect
    rw [h2]
  · decide

/-- C6 witness: the abort behaviour on a three-field (malformed) trace
file. -/
theorem C6_abort_on_bad_file_witness :
    bearMain spec_classifier "/work".data false 0 [some c6bad] =
      { exitCode := 127, written := none } ∧ ¬ (127 : Int) = 0 :=
  C6_abort_on_bad_file spec_classifier "/work".data false 0 [some c6bad]
    ⟨some c6bad, by decide, PyError.indexError, by decide⟩

/-- C7: the trace-record parser fails exactly on an unreadable file or a
content with fewer than five record-separator-delimited fields; on every
other file it returns the record with all five fields populated from the
split. -/
theorem C7_parse_error_iff (f : Option (List Char)) :
    ((∃ e, parseFile f = .error e) ↔
      f = none ∨ ∃ c, f = some c ∧ (splitOnChar RS c).length < 5) ∧
    (∀ c, f = some c → 5 ≤ (splitOnChar RS c).length →
      parseFile f = .ok
        { pid := (splitOnChar RS c).getD 0 []
          ppid := (splitOnChar RS c).getD 1 []
          functionName := (splitOnChar RS c).getD 2 []
          directory := (splitOnChar RS c).getD 3 []
          command := (splitOnChar US ((splitOnChar RS c).getD 4 [])).dropLast }) := by
  constructor
  · cases f with
    | none => simp [parseFile]
    | some c =>
      rw [show parseFile (some c) = parseContent c from rfl]
      unfold parseContent
      by_cases h5 : 5 ≤ (splitOnChar RS c).length
      · rw [if_pos h5]
        constructor
        · rintro ⟨e, he⟩
          simp at he
        · rintro (h | ⟨c2, hc2, hlen⟩)
          · simp at h
          · rw [Option.some_inj.mp hc2] at h5
            omega
      · rw [if_neg h5]
        constructor
        · intro _
          exact Or.inr ⟨c, rfl, by omega⟩
        · intro _
          exact ⟨.indexError, rfl⟩
  · intro c hc h5
    rw [hc]
    rw [show parseFile (some c) = parseContent c from rfl]
    unfold parseContent
    rw [if_pos h5]

/-- C7 witness: the success case on the concrete five-field content
`c7content`. -/
theorem C7_parse_error_iff_witness :
    parseFile (some c7content) = .ok
      { pid := (splitOnChar RS c7content).getD 0 []
        ppid := (splitOnChar RS c7content).getD 1 []
        functionName := (splitOnChar RS c7content).getD 2 []
        directory := (splitOnChar RS c7content).getD 3 []
        command := (splitOnChar US ((splitOnChar RS c7content).getD 4 [])).dropLast } :=
  (C7_parse_error_iff (some c7content)).2 c7content rfl (by decide)

/-- C8, counterexample: on the empty argument vector — which arises from a
trace file whose fifth field is empty — the recognizer does not return a
boolean: `command[0]` raises `IndexError`. -/
theorem C8_counterexample :
    known_compiler [] = none ∧ recognizer_accepts [] = none ∧
    (parseContent ("1".data ++ [RS] ++ "2".data ++ [RS] ++ "e".data ++ [RS] ++
        "/d".data ++ [RS])).map TraceRecord.command = .ok [] := by
  decide

/-- C8 (amended): on every nonempty argument vector the recognizer is pure
and total, returning a boolean. -/
theorem C8_recognizer_total_nonempty (e : List Char) (rest : List (List Char)) :
    (recognizer_accepts (e :: rest)).isSome = true := by
  unfold recognizer_accepts known_compiler
  simp

/-- C9, counterexample: a trace file can record a relative working
directory, and the emitted entry's directory is then that relative string
verbatim, not an absolute path. -/
theorem C9_counterexample :
    recognizer_accepts c9rec.command = some true ∧
    (format_record_one spec_classifier "/work".data c9rec).map Entry.directory =
      ["relative/dir".data] ∧
    isabs "relative/dir".data = false := by
  decide

/-- C9 (amended): every emitted entry's directory is the record's recorded
working directory verbatim; it is absolute exactly when the recorded string
is absolute. -/
theorem C9_directory_verbatim (classify : Classifier) (cwd : List Char) (r : TraceRecord) :
    ∀ e ∈ format_record_one classify cwd r,
      e.directory = r.directory ∧ isabs e.directory = isabs r.directory := by
  intro e he
  unfold format_record_one at he
  by_cases hC : (classify r.command).action = Action.Compile
  · rw [if_pos hC] at he
    obtain ⟨op, _, heq⟩ := List.mem_map.mp he
    rw [← heq]
    exact ⟨rfl, rfl⟩
  · rw [if_neg hC] at he
    simp at he

/-- C9 witness: the verbatim-directory property at the concrete entry
assembled from `c9rec`. -/
theorem C9_directory_verbatim_witness :
    c9entry.directory = c9rec.directory ∧
      isabs c9entry.directory = isabs c9rec.directory :=
  C9_directory_verbatim spec_classifier "/work".data c9rec c9entry (by decide)

/-- C10: the parser drops the final unit-separator-delimited element of the
fifth field unconditionally — the parsed argument vector is the split minus
its last element — and consequently a fifth field written as a join of
arguments without the trailing terminator parses to the argument list minus
its last real argument. -/
theorem C10_dropLast_unconditional (content : List Char)
    (h5 : 5 ≤ (splitOnChar RS content).length) :
    (∃ r, parseContent content = .ok r ∧
      r.command = (splitOnChar US ((splitOnChar RS content).getD 4 [])).dropLast) ∧
    (∀ args : List (List Char), (∀ a ∈ args, US ∉ a) → ¬ args = [] →
      (splitOnChar US (joinChar US args)).dropLast = args.dropLast) := by
  constructor
  · have hok : parseContent content = .ok
        { pid := (splitOnChar RS content).getD 0 []
          ppid := (splitOnChar RS content).getD 1 []
          functionName := (splitOnChar RS content).getD 2 []
          directory := (splitOnChar RS content).getD 3 []
          command := (splitOnChar US ((splitOnChar RS content).getD 4 [])).dropLast } := by
      unfold parseContent
      rw [if_pos h5]
    exact ⟨_, hok, rfl⟩
  · intro args hfree hne
    rw [splitOnChar_joinChar US args hne hfree]

/-- C10 witness: on `c10content`, whose fifth field `gcc<US>a.c` lacks the
trailing separator, the parsed command is the split minus its final
element — the last real argument `a.c` is lost. -/
theorem C10_dropLast_unconditional_witness :
    ∃ r, parseContent c10content = .ok r ∧
      r.command = (splitOnChar US ((splitOnChar RS c10content).getD 4 [])).dropLast :=
  (C10_dropLast_unconditional c10content (by decide)).1

end Bear
